import Mathlib

/-!
Verification development for the archive download-and-convert script
(scripts/download_and_convert.py).  The Python source is shallowly
embedded: pure string manipulation is translated to Lean functions on
`String`/`List Char`, and the effectful pipeline `download_and_convert`
is translated to explicit state passing over a record of existing files,
the accumulated skip list, and a trace of external effects.  External
collaborators (the HTTP client, the transcoder process, the removal
syscall, the standard relative-URL join) are parameters/oracles.
-/

namespace Gabb

/-- Models Python `s.split(sep, maxsplit)` on a list of characters for a
single-character separator: at most `maxsplit` splits, remainder kept whole. -/
def splitCharMax (sep : Char) : List Char → Nat → List (List Char)
  | [], _ => [[]]
  | c :: cs, m =>
    if c = sep ∧ m ≠ 0 then
      [] :: splitCharMax sep cs (m - 1)
    else
      match splitCharMax sep cs m with
      | [] => [[c]]
      | h :: t => (c :: h) :: t

/-- Models Python `s.split("/", maxsplit)`. -/
def pySplitSlash (s : String) (maxsplit : Nat) : List String :=
  (splitCharMax '/' s.toList maxsplit).map fun l => String.mk l

/-- The components of `urllib.parse.urlparse` used by the script. -/
structure UrlParts where
  scheme : String
  netloc : String
  path : String
deriving Repr, DecidableEq

/-- True for the characters Python accepts inside a URL scheme. -/
def isSchemeChar (c : Char) : Bool :=
  c.isAlphanum || c = '+' || c = '-' || c = '.'

/-- Models the fragment of `urllib.parse.urlparse` exercised by the script
(inputs without query, fragment or params): an optional `scheme:` prefix
(lower-cased), then an optional `//netloc` up to the next slash, then the
path. -/
def urlparse (s : String) : UrlParts :=
  let cs := s.toList
  let pre := cs.takeWhile (· ≠ ':')
  let rest := cs.dropWhile (· ≠ ':')
  match rest with
  | [] => ⟨"", "", s⟩
  | _ :: after =>
    if pre ≠ [] ∧ (pre.headD '0').isAlpha ∧ pre.all isSchemeChar then
      let scheme := String.mk (pre.map Char.toLower)
      if after.take 2 = ['/', '/'] then
        let rest2 := after.drop 2
        ⟨scheme, String.mk (rest2.takeWhile (· ≠ '/')),
          String.mk (rest2.dropWhile (· ≠ '/'))⟩
      else
        ⟨scheme, "", String.mk after⟩
    else ⟨"", "", s⟩

/-- Models `os.path.dirname` (posix): everything up to the last slash,
with trailing slashes stripped unless the result is all slashes. -/
def dirname (s : String) : String :=
  let cs := s.toList
  let head := (cs.reverse.dropWhile (· ≠ '/')).reverse
  if head ≠ [] ∧ head.any (· ≠ '/') then
    String.mk ((head.reverse.dropWhile (· = '/')).reverse)
  else
    String.mk head

/-- Models `os.path.basename` (posix): everything after the last slash. -/
def basename (s : String) : String :=
  String.mk (s.toList.reverse.takeWhile (· ≠ '/')).reverse

/-- Models `os.path.splitext(p)[0]` for a path without slashes: drop the
last dot-suffix unless every character before the last dot is a dot. -/
def splitextRoot (s : String) : String :=
  let cs := s.toList
  match cs.reverse.dropWhile (· ≠ '.') with
  | [] => s
  | _ :: revBefore =>
    let before := revBefore.reverse
    if before.any (· ≠ '.') then String.mk before else s

/-- Models Python str.lower for the ASCII strings handled here, written
on the character list so that it reduces inside the kernel. -/
def strToLower (s : String) : String :=
  String.mk (s.toList.map Char.toLower)

/-- Models Python str.endswith, written on character lists so that it
reduces inside the kernel. -/
def strEndsWith (s suffix : String) : Bool :=
  decide (s.toList.reverse.take suffix.toList.length = suffix.toList.reverse)

/-- Models Python str.startswith, written on character lists so that it
reduces inside the kernel. -/
def strStartsWith (s pre : String) : Bool :=
  decide (s.toList.take pre.toList.length = pre.toList)

/-- Module constant RA_DIR. -/
def RA_DIR : String := "ra_files"

/-- Module constant FLAC_DIR. -/
def FLAC_DIR : String := "flac_files"

/-- Module constant MAX_RETRIES. -/
def MAX_RETRIES : Nat := 3

/-- Module constant RETRY_WAIT_SEC. -/
def RETRY_WAIT_SEC : Nat := 5

/-- Embedding of `parse_archive_base(page_url)` (lines 35-54): split the
URL path on `/` with maxsplit 4, require at least 5 parts, take the
timestamp from parts[2], rebuild the original URL as
`parts[3] + "//" + parts[4]`, and assemble scheme://netloc + dirname + "/". -/
def parse_archive_base (page_url : String) : Option String × Option String :=
  let parsed := urlparse page_url
  let parts := pySplitSlash parsed.path 4
  if parts.length < 5 then (none, none)
  else
    let ts := parts.getD 2 ""
    let orig_full := parts.getD 3 "" ++ "//" ++ parts.getD 4 ""
    let po := urlparse orig_full
    let orig_domain := po.scheme ++ "://" ++ po.netloc
    let orig_dir := dirname po.path ++ "/"
    (some ts, some (orig_domain ++ orig_dir))

/-- The page URL used as the worked example in the docstring of
`parse_archive_base` (source lines 39-41). -/
def examplePageUrl : String :=
  "https://web.archive.org/web/19970807011832/http://www.mahoroba.or.jp/~nakagami/music/cd.html"

/-- External effects performed by the pipeline, recorded as a trace. -/
inductive Effect
  | httpGet (url : String)
  | fsWrite (path : String)
  | fsRemove (path : String)
  | transcode (src dst : String)
  | sleep (sec : Nat)
deriving Repr, DecidableEq

/-- Outcome of one `requests.get` attempt: a response with a status code,
or a raised `RequestException`. -/
inductive DlOutcome
  | resp (status : Nat)
  | raise
deriving Repr, DecidableEq

/-- Oracle for the external collaborators of one `download_and_convert`
call: the HTTP outcome of each numbered attempt, the transcoder exit code,
whether the transcoder leaves a destination file on disk, and whether
`os.remove` succeeds. -/
structure Env where
  http : Nat → DlOutcome
  ffExit : Nat
  ffWritesDest : Bool
  removeOk : Bool

/-- Observable state threaded through the pipeline: the set of existing
file paths, the skip list passed in by the caller, and the effect trace. -/
structure St where
  files : List String
  skipped : List String
  effects : List Effect
deriving Repr, DecidableEq

/-- Creating a file: set-like insert into the list of existing paths. -/
def addFile (p : String) (fs : List String) : List String :=
  if p ∈ fs then fs else fs ++ [p]

/-- Removing a file path. -/
def removeFile (p : String) (fs : List String) : List String :=
  fs.filter (fun q => q ≠ p)

/-- `local_ra_path = os.path.join(RA_DIR, filename)` (line 71). -/
def raPathOf (url : String) : String :=
  RA_DIR ++ "/" ++ basename url

/-- `flac_path = os.path.join(FLAC_DIR, splitext(filename)[0] + ".flac")`
(lines 72-73). -/
def flacPathOf (url : String) : String :=
  FLAC_DIR ++ "/" ++ (splitextRoot (basename url) ++ ".flac")

/-- The download retry loop (lines 83-104): one recursive step per
remaining attempt number.  A 200 response writes the file and succeeds; a
non-200 response appends the URL to the skip list and stops; an exception
sleeps and retries while attempts remain, appending to the skip list on
the final attempt. -/
def downloadGo (env : Env) (url : String) : List Nat → St → Bool × St
  | [], s => (false, s)
  | a :: rest, s =>
    let s1 : St := { s with effects := s.effects ++ [Effect.httpGet url] }
    match env.http a with
    | DlOutcome.resp code =>
      if code = 200 then
        (true, { s1 with files := addFile (raPathOf url) s1.files,
                         effects := s1.effects ++ [Effect.fsWrite (raPathOf url)] })
      else
        (false, { s1 with skipped := s1.skipped ++ [url] })
    | DlOutcome.raise =>
      match rest with
      | [] => (false, { s1 with skipped := s1.skipped ++ [url] })
      | _ :: _ =>
        downloadGo env url rest { s1 with effects := s1.effects ++ [Effect.sleep RETRY_WAIT_SEC] }

/-- The download step (lines 80-108): skip the loop when the source file
already exists, otherwise run the retry loop over attempts
`range(1, MAX_RETRIES + 1)`. -/
def downloadPhase (env : Env) (url : String) (s : St) : Bool × St :=
  if raPathOf url ∈ s.files then (true, s)
  else downloadGo env url (List.range' 1 MAX_RETRIES) s

/-- The `subprocess.run` invocation of the transcoder (lines 118-123): the
transcode effect is recorded, and the destination file appears iff the
oracle says the transcoder wrote it. -/
def transcodeStart (env : Env) (url : String) (s : St) : St :=
  { s with
      effects := s.effects ++ [Effect.transcode (raPathOf url) (flacPathOf url)],
      files := if env.ffWritesDest then addFile (flacPathOf url) s.files else s.files }

/-- A best-effort `os.remove(local_ra_path)` whose failure is swallowed or
merely logged (lines 128-132 and 137-141). -/
def tryRemoveRa (env : Env) (url : String) (s : St) : St :=
  if env.removeOk then
    { s with files := removeFile (raPathOf url) s.files,
             effects := s.effects ++ [Effect.fsRemove (raPathOf url)] }
  else s

/-- The `except subprocess.CalledProcessError` handler (lines 125-134):
remove the source if present (best-effort), append the URL to the skip
list, return False. -/
def convFail (env : Env) (url : String) (s : St) : Bool × St :=
  let s3 := if raPathOf url ∈ s.files then tryRemoveRa env url s else s
  (false, { s3 with skipped := s3.skipped ++ [url] })

/-- Conversion success epilogue (lines 136-143): best-effort removal of
the source, return True. -/
def convOk (env : Env) (url : String) (s : St) : Bool × St :=
  (true, tryRemoveRa env url s)

/-- The conversion step (lines 116-143): `check=True` raises exactly when
the transcoder exit code is non-zero. -/
def convert (env : Env) (url : String) (s : St) : Bool × St :=
  if env.ffExit ≠ 0 then convFail env url s else convOk env url s

/-- Lines 105-143 after the download step: return False when the download
failed (line 106), return False when the source file is still missing
(lines 110-113, with no skip append), otherwise transcode. -/
def dlThenConvert (env : Env) (url : String) (r : Bool × St) : Bool × St :=
  if r.1 = false then (false, r.2)
  else if raPathOf url ∉ r.2.files then (false, r.2)
  else convert env url (transcodeStart env url r.2)

/-- Embedding of `download_and_convert(url, skipped_list)` (lines 57-143):
reject basenames not ending in ".ra" (lines 67-69), short-circuit on an
existing destination (lines 76-78), otherwise download then convert. -/
def download_and_convert (env : Env) (url : String) (s : St) : Bool × St :=
  if (strEndsWith (strToLower (basename url)) ".ra") = false then (false, s)
  else if flacPathOf url ∈ s.files then (true, s)
  else dlThenConvert env url (downloadPhase env url s)

/-- The automatic phase loop of `main` (lines 191-193): process each URL
in order, threading the state (the result flag is discarded). -/
def runAll (envOf : String → Env) : List String → St → St
  | [], s => s
  | u :: rest, s => runAll envOf rest (download_and_convert (envOf u) u s).2

/-- Embedding of the link resolution in `main` (lines 178-185),
parameterised by the external `urllib.parse.urljoin`: an absolute href is
used directly, a relative one is joined against the base, and the result
is re-wrapped under the archive host with the page timestamp. -/
def resolve_link (uj : String → String → String) (ts orig_base href : String) : String :=
  let orig_url :=
    if strStartsWith href "http://" || strStartsWith href "https://" then href
    else uj orig_base href
  "https://web.archive.org/web/" ++ ts ++ "/" ++ orig_url

/-- `ra_urls.add(...)`: Python set insertion, modelled as a duplicate-free
list insert. -/
def addUrl (u : String) (acc : List String) : List String :=
  if u ∈ acc then acc else acc ++ [u]

/-- The anchor scan of one page in `main` (lines 173-186): every href
ending case-insensitively in ".ra" contributes one resolved URL to the
accumulated set. -/
def harvestPage (uj : String → String → String) (ts orig_base : String)
    (hrefs : List String) (acc : List String) : List String :=
  hrefs.foldl
    (fun a href =>
      if strEndsWith (strToLower href) ".ra" then addUrl (resolve_link uj ts orig_base href) a
      else a)
    acc

/-- True exactly on transcoder-invocation effects. -/
def Effect.isTranscode : Effect → Bool
  | Effect.transcode _ _ => true
  | _ => false

/-- Empty initial state. -/
def st0 : St := ⟨[], [], []⟩

/-- A sample archive-wrapped asset URL. -/
def sampleUrl : String :=
  "https://web.archive.org/web/19970807015220/http://www.mahoroba.or.jp/~nakagami/music/snd/a.ra"

/-- A sample URL whose basename does not end in ".ra". -/
def mp3Url : String := "http://h/x.mp3"

/-- Oracle: every request answers HTTP 404. -/
def env404 : Env := ⟨fun _ => DlOutcome.resp 404, 0, true, true⟩

/-- Oracle: every request answers HTTP 206, a 2xx status other than 200. -/
def env206 : Env := ⟨fun _ => DlOutcome.resp 206, 0, true, true⟩

/-- Oracle: every request raises a transport error. -/
def envRaise : Env := ⟨fun _ => DlOutcome.raise, 0, true, true⟩

/-- Oracle: download succeeds, transcoder exits 0 and writes the output. -/
def envOk : Env := ⟨fun _ => DlOutcome.resp 200, 0, true, true⟩

/-- Oracle: download succeeds, transcoder exits 1 yet leaves a
partially-written destination file on disk. -/
def envPartial : Env := ⟨fun _ => DlOutcome.resp 200, 1, true, true⟩

/-- A concrete stand-in join function used to instantiate theorems that
are parameterised by the external relative-URL resolver. -/
def ujSample : String → String → String := fun b r => b ++ r

/-- A state in which the destination file for `sampleUrl` already exists. -/
def stWithFlac : St := ⟨[flacPathOf sampleUrl], [], []⟩

/-- The effect trace contributed by `n` leading transport-error attempts
that are each followed by a further attempt: one HTTP GET and one fixed
inter-attempt sleep per failed attempt. -/
def attemptTrace (url : String) : Nat → List Effect
  | 0 => []
  | n + 1 => [Effect.httpGet url, Effect.sleep RETRY_WAIT_SEC] ++ attemptTrace url n

/- ------------------------------------------------------------------ -/
/- Helper lemmas                                                      -/
/- ------------------------------------------------------------------ -/

theorem data_append (a b : String) : (a ++ b).data = a.data ++ b.data := by
  cases a; cases b; rfl

theorem raPath_ne_flacPath (u v : String) : raPathOf u ≠ flacPathOf v := by
  intro h
  have h2 := congrArg (fun t : String => t.data.head?) h
  have h3 : (some 'r' : Option Char) = some 'f' := h2
  simp at h3

theorem range'_one_three : List.range' 1 MAX_RETRIES = [1, 2, 3] := rfl

theorem mem_addFile_self (p : String) (fs : List String) : p ∈ addFile p fs := by
  unfold addFile
  by_cases h : p ∈ fs <;> simp [h]

theorem mem_addFile_of_mem (p q : String) (fs : List String) (h : p ∈ fs) :
    p ∈ addFile q fs := by
  unfold addFile
  by_cases hq : q ∈ fs <;> simp [hq, h]

theorem mem_removeFile (p q : String) (fs : List String) :
    p ∈ removeFile q fs ↔ p ∈ fs ∧ p ≠ q := by
  unfold removeFile
  simp

theorem downloadGo_skipped_cases (env : Env) (url : String) (l : List Nat) (s : St) :
    (downloadGo env url l s).2.skipped = s.skipped ∨
    (downloadGo env url l s).2.skipped = s.skipped ++ [url] := by
  induction l generalizing s with
  | nil => left; rfl
  | cons a rest ih =>
    simp only [downloadGo]
    cases henv : env.http a with
    | resp code =>
      by_cases hc : code = 200
      · left; simp [hc]
      · right; simp [hc]
    | raise =>
      cases rest with
      | nil => right; rfl
      | cons b t => exact ih _

theorem downloadGo_true_skipped (env : Env) (url : String) (l : List Nat) (s : St)
    (h : (downloadGo env url l s).1 = true) :
    (downloadGo env url l s).2.skipped = s.skipped := by
  induction l generalizing s with
  | nil => rfl
  | cons a rest ih =>
    simp only [downloadGo] at h ⊢
    cases henv : env.http a with
    | resp code =>
      rw [henv] at h
      by_cases hc : code = 200
      · simp [hc]
      · simp [hc] at h
    | raise =>
      rw [henv] at h
      cases rest with
      | nil => simp at h
      | cons b t => exact ih _ h

theorem downloadGo_true_files (env : Env) (url : String) (l : List Nat) (s : St)
    (h : (downloadGo env url l s).1 = true) :
    raPathOf url ∈ (downloadGo env url l s).2.files := by
  induction l generalizing s with
  | nil => simp [downloadGo] at h
  | cons a rest ih =>
    simp only [downloadGo] at h ⊢
    cases henv : env.http a with
    | resp code =>
      rw [henv] at h
      by_cases hc : code = 200
      · simp [hc, mem_addFile_self]
      · simp [hc] at h
    | raise =>
      rw [henv] at h
      cases rest with
      | nil => simp at h
      | cons b t => exact ih _ h

theorem downloadGo_false_skipped (env : Env) (url : String) (l : List Nat) (s : St)
    (hl : l ≠ []) (h : (downloadGo env url l s).1 = false) :
    (downloadGo env url l s).2.skipped = s.skipped ++ [url] := by
  induction l generalizing s with
  | nil => exact absurd rfl hl
  | cons a rest ih =>
    simp only [downloadGo] at h ⊢
    cases henv : env.http a with
    | resp code =>
      rw [henv] at h
      by_cases hc : code = 200
      · simp [hc] at h
      · simp [hc]
    | raise =>
      rw [henv] at h
      cases rest with
      | nil => rfl
      | cons b t => exact ih _ (List.cons_ne_nil b t) h

theorem downloadGo_files_mono (env : Env) (url : String) (l : List Nat) (s : St)
    (p : String) (hp : p ∈ s.files) :
    p ∈ (downloadGo env url l s).2.files := by
  induction l generalizing s with
  | nil => exact hp
  | cons a rest ih =>
    simp only [downloadGo]
    cases henv : env.http a with
    | resp code =>
      by_cases hc : code = 200
      · simp [hc]; exact mem_addFile_of_mem _ _ _ hp
      · simp [hc]; exact hp
    | raise =>
      cases rest with
      | nil => exact hp
      | cons b t => exact ih _ hp

theorem downloadGo_no_transcode (env : Env) (url : String) (l : List Nat) (s : St) :
    ((downloadGo env url l s).2.effects).filter (fun e => e.isTranscode) =
      s.effects.filter (fun e => e.isTranscode) := by
  induction l generalizing s with
  | nil => rfl
  | cons a rest ih =>
    simp only [downloadGo]
    cases henv : env.http a with
    | resp code =>
      by_cases hc : code = 200
      · simp [hc, List.filter_append, Effect.isTranscode]
      · simp [hc, List.filter_append, Effect.isTranscode]
    | raise =>
      cases rest with
      | nil => simp [List.filter_append, Effect.isTranscode]
      | cons b t =>
        rw [ih _]
        simp [List.filter_append, Effect.isTranscode]

theorem downloadPhase_true_files (env : Env) (url : String) (s : St)
    (h : (downloadPhase env url s).1 = true) :
    raPathOf url ∈ (downloadPhase env url s).2.files := by
  by_cases hs : raPathOf url ∈ s.files
  · simp [downloadPhase, hs]
  · simp only [downloadPhase, hs, if_false] at h ⊢
    exact downloadGo_true_files _ _ _ _ h

theorem downloadPhase_skipped_cases (env : Env) (url : String) (s : St) :
    (downloadPhase env url s).2.skipped = s.skipped ∨
    (downloadPhase env url s).2.skipped = s.skipped ++ [url] := by
  by_cases hs : raPathOf url ∈ s.files
  · left; simp [downloadPhase, hs]
  · simp only [downloadPhase, hs, if_false]
    exact downloadGo_skipped_cases _ _ _ _

theorem downloadPhase_true_skipped (env : Env) (url : String) (s : St)
    (h : (downloadPhase env url s).1 = true) :
    (downloadPhase env url s).2.skipped = s.skipped := by
  by_cases hs : raPathOf url ∈ s.files
  · simp [downloadPhase, hs]
  · simp only [downloadPhase, hs, if_false] at h ⊢
    exact downloadGo_true_skipped _ _ _ _ h

theorem downloadPhase_false_skipped (env : Env) (url : String) (s : St)
    (h : (downloadPhase env url s).1 = false) :
    (downloadPhase env url s).2.skipped = s.skipped ++ [url] := by
  by_cases hs : raPathOf url ∈ s.files
  · simp [downloadPhase, hs] at h
  · simp only [downloadPhase, hs, if_false] at h ⊢
    exact downloadGo_false_skipped _ _ _ _ (by rw [range'_one_three]; simp) h

theorem downloadPhase_files_mono (env : Env) (url : String) (s : St)
    (p : String) (hp : p ∈ s.files) :
    p ∈ (downloadPhase env url s).2.files := by
  by_cases hs : raPathOf url ∈ s.files
  · simpa [downloadPhase, hs] using hp
  · simp only [downloadPhase, hs, if_false]
    exact downloadGo_files_mono _ _ _ _ _ hp

theorem downloadPhase_no_transcode (env : Env) (url : String) (s : St) :
    ((downloadPhase env url s).2.effects).filter (fun e => e.isTranscode) =
      s.effects.filter (fun e => e.isTranscode) := by
  by_cases hs : raPathOf url ∈ s.files
  · simp [downloadPhase, hs]
  · simp only [downloadPhase, hs, if_false]
    exact downloadGo_no_transcode _ _ _ _

theorem transcodeStart_skipped (env : Env) (url : String) (s : St) :
    (transcodeStart env url s).skipped = s.skipped := rfl

theorem tryRemoveRa_skipped (env : Env) (url : String) (s : St) :
    (tryRemoveRa env url s).skipped = s.skipped := by
  unfold tryRemoveRa
  split_ifs <;> rfl

theorem tryRemoveRa_files_mem (env : Env) (url : String) (s : St) (p : String)
    (hne : p ≠ raPathOf url) (hp : p ∈ s.files) :
    p ∈ (tryRemoveRa env url s).files := by
  unfold tryRemoveRa
  split_ifs
  · exact (mem_removeFile _ _ _).mpr ⟨hp, hne⟩
  · exact hp

theorem transcodeStart_files_mem (env : Env) (url : String) (s : St) (p : String)
    (hp : p ∈ s.files) :
    p ∈ (transcodeStart env url s).files := by
  unfold transcodeStart
  split_ifs
  · exact mem_addFile_of_mem _ _ _ hp
  · exact hp

theorem convFail_fst (env : Env) (url : String) (s : St) :
    (convFail env url s).1 = false := rfl

theorem convFail_skipped (env : Env) (url : String) (s : St) :
    (convFail env url s).2.skipped = s.skipped ++ [url] := by
  unfold convFail
  split_ifs with h
  · simp [tryRemoveRa_skipped]
  · simp

theorem convFail_files_mem (env : Env) (url : String) (s : St) (p : String)
    (hne : p ≠ raPathOf url) (hp : p ∈ s.files) :
    p ∈ (convFail env url s).2.files := by
  unfold convFail
  split_ifs with h
  · exact tryRemoveRa_files_mem _ _ _ _ hne hp
  · exact hp

theorem convOk_files_mem (env : Env) (url : String) (s : St) (p : String)
    (hne : p ≠ raPathOf url) (hp : p ∈ s.files) :
    p ∈ (convOk env url s).2.files :=
  tryRemoveRa_files_mem _ _ _ _ hne hp

theorem dlThenConvert_false (env : Env) (url : String) (s1 : St) :
    dlThenConvert env url (false, s1) = (false, s1) := rfl

theorem dlThenConvert_true (env : Env) (url : String) (s1 : St)
    (hmem : raPathOf url ∈ s1.files) :
    dlThenConvert env url (true, s1) = convert env url (transcodeStart env url s1) := by
  unfold dlThenConvert
  simp [hmem]

theorem dlThenConvert_true_missing (env : Env) (url : String) (s1 : St)
    (hmem : raPathOf url ∉ s1.files) :
    dlThenConvert env url (true, s1) = (false, s1) := by
  unfold dlThenConvert
  simp [hmem]

theorem convert_fail (env : Env) (url : String) (s : St) (h : env.ffExit ≠ 0) :
    convert env url s = convFail env url s := by
  unfold convert
  simp [h]

theorem convert_okk (env : Env) (url : String) (s : St) (h : env.ffExit = 0) :
    convert env url s = convOk env url s := by
  unfold convert
  simp [h]

theorem dac_dest_exists (env : Env) (url : String) (s : St)
    (hext : strEndsWith (strToLower (basename url)) ".ra" = true)
    (hdest : flacPathOf url ∈ s.files) :
    download_and_convert env url s = (true, s) := by
  unfold download_and_convert
  rw [hext]
  simp [hdest]

theorem dac_eq_noext (env : Env) (url : String) (s : St)
    (hext : strEndsWith (strToLower (basename url)) ".ra" = false) :
    download_and_convert env url s = (false, s) := by
  unfold download_and_convert
  rw [hext]
  simp

theorem dac_eq_main (env : Env) (url : String) (s : St)
    (hext : strEndsWith (strToLower (basename url)) ".ra" = true)
    (hdest : flacPathOf url ∉ s.files) :
    download_and_convert env url s = dlThenConvert env url (downloadPhase env url s) := by
  unfold download_and_convert
  rw [hext]
  simp [hdest]

theorem dac_skipped_cases (env : Env) (url : String) (s : St) :
    (download_and_convert env url s).2.skipped = s.skipped ∨
    (download_and_convert env url s).2.skipped = s.skipped ++ [url] := by
  cases hext : strEndsWith (strToLower (basename url)) ".ra" with
  | false => left; rw [dac_eq_noext env url s hext]
  | true =>
    by_cases hdest : flacPathOf url ∈ s.files
    · left; rw [dac_dest_exists env url s hext hdest]
    · rw [dac_eq_main env url s hext hdest]
      rcases hr : downloadPhase env url s with ⟨ok, s1⟩
      have hsk := downloadPhase_skipped_cases env url s
      rw [hr] at hsk
      cases ok with
      | false => rw [dlThenConvert_false]; exact hsk
      | true =>
        have hskT := downloadPhase_true_skipped env url s (by rw [hr])
        have hmem := downloadPhase_true_files env url s (by rw [hr])
        rw [hr] at hskT hmem
        rw [dlThenConvert_true env url s1 hmem]
        by_cases h4 : env.ffExit = 0
        · rw [convert_okk _ _ _ h4]
          left
          unfold convOk
          rw [tryRemoveRa_skipped, transcodeStart_skipped]
          exact hskT
        · rw [convert_fail _ _ _ h4]
          right
          rw [convFail_skipped, transcodeStart_skipped]
          rw [show s1.skipped = s.skipped from hskT]

theorem dac_true_skipped (env : Env) (url : String) (s : St)
    (h : (download_and_convert env url s).1 = true) :
    (download_and_convert env url s).2.skipped = s.skipped := by
  cases hext : strEndsWith (strToLower (basename url)) ".ra" with
  | false => rw [dac_eq_noext env url s hext]
  | true =>
    by_cases hdest : flacPathOf url ∈ s.files
    · rw [dac_dest_exists env url s hext hdest]
    · rw [dac_eq_main env url s hext hdest] at h ⊢
      rcases hr : downloadPhase env url s with ⟨ok, s1⟩
      rw [hr] at h
      cases ok with
      | false => rw [dlThenConvert_false] at h; simp at h
      | true =>
        have hskT := downloadPhase_true_skipped env url s (by rw [hr])
        rw [hr] at hskT
        by_cases h3 : raPathOf url ∈ s1.files
        · rw [dlThenConvert_true env url s1 h3] at h ⊢
          by_cases h4 : env.ffExit = 0
          · rw [convert_okk _ _ _ h4]
            unfold convOk
            rw [tryRemoveRa_skipped, transcodeStart_skipped]
            exact hskT
          · rw [convert_fail _ _ _ h4, convFail_fst] at h
            simp at h
        · rw [dlThenConvert_true_missing env url s1 h3] at h
          simp at h

theorem dac_false_skipped (env : Env) (url : String) (s : St)
    (hext : strEndsWith (strToLower (basename url)) ".ra" = true)
    (h : (download_and_convert env url s).1 = false) :
    (download_and_convert env url s).2.skipped = s.skipped ++ [url] := by
  by_cases hdest : flacPathOf url ∈ s.files
  · rw [dac_dest_exists env url s hext hdest] at h
    simp at h
  · rw [dac_eq_main env url s hext hdest] at h ⊢
    rcases hr : downloadPhase env url s with ⟨ok, s1⟩
    rw [hr] at h
    cases ok with
    | false =>
      have hskF := downloadPhase_false_skipped env url s (by rw [hr])
      rw [hr] at hskF
      rw [dlThenConvert_false]
      exact hskF
    | true =>
      have hmem := downloadPhase_true_files env url s (by rw [hr])
      have hskT := downloadPhase_true_skipped env url s (by rw [hr])
      rw [hr] at hmem hskT
      rw [dlThenConvert_true env url s1 hmem] at h ⊢
      by_cases h4 : env.ffExit = 0
      · rw [convert_okk _ _ _ h4] at h
        unfold convOk at h
        simp at h
      · rw [convert_fail _ _ _ h4]
        rw [convFail_skipped, transcodeStart_skipped]
        rw [show s1.skipped = s.skipped from hskT]

theorem dac_true_dest_mem (env : Env) (url : String) (s : St)
    (hcontract : env.ffExit = 0 → env.ffWritesDest = true)
    (h : (download_and_convert env url s).1 = true) :
    flacPathOf url ∈ (download_and_convert env url s).2.files := by
  cases hext : strEndsWith (strToLower (basename url)) ".ra" with
  | false =>
    rw [dac_eq_noext env url s hext] at h
    simp at h
  | true =>
    by_cases hdest : flacPathOf url ∈ s.files
    · rw [dac_dest_exists env url s hext hdest]
      exact hdest
    · rw [dac_eq_main env url s hext hdest] at h ⊢
      rcases hr : downloadPhase env url s with ⟨ok, s1⟩
      rw [hr] at h
      cases ok with
      | false => rw [dlThenConvert_false] at h; simp at h
      | true =>
        by_cases h3 : raPathOf url ∈ s1.files
        · rw [dlThenConvert_true env url s1 h3] at h ⊢
          by_cases h4 : env.ffExit = 0
          · rw [convert_okk _ _ _ h4]
            have hw : env.ffWritesDest = true := hcontract h4
            apply convOk_files_mem
            · exact Ne.symm (raPath_ne_flacPath url url)
            · unfold transcodeStart
              rw [hw]
              simp only [if_true]
              exact mem_addFile_self _ _
          · rw [convert_fail _ _ _ h4, convFail_fst] at h
            simp at h
        · rw [dlThenConvert_true_missing env url s1 h3] at h
          simp at h

theorem dac_flac_files_mono (env : Env) (u v : String) (s : St)
    (hp : flacPathOf v ∈ s.files) :
    flacPathOf v ∈ (download_and_convert env u s).2.files := by
  cases hext : strEndsWith (strToLower (basename u)) ".ra" with
  | false => rw [dac_eq_noext env u s hext]; exact hp
  | true =>
    by_cases hdest : flacPathOf u ∈ s.files
    · rw [dac_dest_exists env u s hext hdest]; exact hp
    · rw [dac_eq_main env u s hext hdest]
      rcases hr : downloadPhase env u s with ⟨ok, s1⟩
      have hmono := downloadPhase_files_mono env u s _ hp
      rw [hr] at hmono
      cases ok with
      | false => rw [dlThenConvert_false]; exact hmono
      | true =>
        by_cases h3 : raPathOf u ∈ s1.files
        · rw [dlThenConvert_true env u s1 h3]
          have hne : flacPathOf v ≠ raPathOf u := Ne.symm (raPath_ne_flacPath u v)
          by_cases h4 : env.ffExit = 0
          · rw [convert_okk _ _ _ h4]
            exact convOk_files_mem _ _ _ _ hne (transcodeStart_files_mem _ _ _ _ hmono)
          · rw [convert_fail _ _ _ h4]
            exact convFail_files_mem _ _ _ _ hne (transcodeStart_files_mem _ _ _ _ hmono)
        · rw [dlThenConvert_true_missing env u s1 h3]
          exact hmono


theorem dac_skipped_mono (env : Env) (url : String) (s : St) (q : String)
    (hq : q ∈ s.skipped) :
    q ∈ (download_and_convert env url s).2.skipped := by
  rcases dac_skipped_cases env url s with h | h <;> rw [h] <;> simp [hq]

theorem runAll_flac_mono (envOf : String → Env) (urls : List String) (s : St)
    (v : String) (hp : flacPathOf v ∈ s.files) :
    flacPathOf v ∈ (runAll envOf urls s).files := by
  induction urls generalizing s with
  | nil => exact hp
  | cons a rest ih => exact ih _ (dac_flac_files_mono _ _ _ _ hp)

theorem runAll_skipped_mono (envOf : String → Env) (urls : List String) (s : St)
    (q : String) (hq : q ∈ s.skipped) :
    q ∈ (runAll envOf urls s).skipped := by
  induction urls generalizing s with
  | nil => exact hq
  | cons a rest ih => exact ih _ (dac_skipped_mono _ _ _ _ hq)

theorem mem_addFile_iff (p q : String) (fs : List String) :
    p ∈ addFile q fs ↔ p = q ∨ p ∈ fs := by
  unfold addFile
  split_ifs with h
  · constructor
    · exact fun hx => Or.inr hx
    · rintro (rfl | hx)
      · exact h
      · exact hx
  · simp [or_comm]

theorem downloadPhase_first_non200 (env : Env) (url : String) (s : St) (c : Nat)
    (hsrc : raPathOf url ∉ s.files) (hresp : env.http 1 = DlOutcome.resp c)
    (hc : c ≠ 200) :
    downloadPhase env url s =
      (false, { s with skipped := s.skipped ++ [url],
                       effects := s.effects ++ [Effect.httpGet url] }) := by
  unfold downloadPhase
  rw [if_neg hsrc, range'_one_three]
  simp only [downloadGo]
  rw [hresp]
  simp [hc]

theorem downloadPhase_first_200 (env : Env) (url : String) (s : St)
    (hsrc : raPathOf url ∉ s.files) (hresp : env.http 1 = DlOutcome.resp 200) :
    downloadPhase env url s =
      (true, { s with files := addFile (raPathOf url) s.files,
                      effects := s.effects ++
                        [Effect.httpGet url, Effect.fsWrite (raPathOf url)] }) := by
  unfold downloadPhase
  rw [if_neg hsrc, range'_one_three]
  simp only [downloadGo]
  rw [hresp]
  simp [List.append_assoc]

theorem convFail_ra_removed (env : Env) (url : String) (s : St)
    (hra : raPathOf url ∈ s.files) (hrm : env.removeOk = true) :
    raPathOf url ∉ (convFail env url s).2.files := by
  unfold convFail tryRemoveRa
  rw [if_pos hra, hrm]
  simp [mem_removeFile]

theorem convOk_ra_removed (env : Env) (url : String) (s : St)
    (hrm : env.removeOk = true) :
    raPathOf url ∉ (convOk env url s).2.files := by
  unfold convOk tryRemoveRa
  rw [hrm]
  simp [mem_removeFile]

theorem tryRemoveRa_files_iff (env : Env) (url : String) (s : St) (p : String)
    (hne : p ≠ raPathOf url) :
    p ∈ (tryRemoveRa env url s).files ↔ p ∈ s.files := by
  unfold tryRemoveRa
  split_ifs with h
  · simp [mem_removeFile, hne]
  · exact Iff.rfl

theorem convFail_files_iff (env : Env) (url : String) (s : St) (p : String)
    (hne : p ≠ raPathOf url) :
    p ∈ (convFail env url s).2.files ↔ p ∈ s.files := by
  unfold convFail
  split_ifs with h
  · exact tryRemoveRa_files_iff env url s p hne
  · exact Iff.rfl

theorem transcodeStart_flac_mem (env : Env) (url : String) (s : St) :
    flacPathOf url ∈ (transcodeStart env url s).files ↔
      (env.ffWritesDest = true ∨ flacPathOf url ∈ s.files) := by
  unfold transcodeStart
  by_cases h : env.ffWritesDest = true
  · simp [h, mem_addFile_iff]
  · simp [h]

theorem mem_addUrl_iff (x u : String) (acc : List String) :
    x ∈ addUrl u acc ↔ x = u ∨ x ∈ acc := by
  unfold addUrl
  split_ifs with h
  · constructor
    · exact fun hx => Or.inr hx
    · rintro (rfl | hx)
      · exact h
      · exact hx
  · simp [or_comm]

theorem addUrl_nodup (u : String) (acc : List String) (h : acc.Nodup) :
    (addUrl u acc).Nodup := by
  unfold addUrl
  split_ifs with hmem
  · exact h
  · rw [List.nodup_append]
    refine ⟨h, List.nodup_singleton u, ?_⟩
    intro x hx hxu
    rw [List.mem_singleton] at hxu
    subst hxu
    exact hmem hx

theorem foldl_addUrl_mem (p : String → Bool) (f : String → String) :
    ∀ (hrefs acc : List String) (x : String),
      x ∈ hrefs.foldl (fun a href => if p href then addUrl (f href) a else a) acc ↔
        x ∈ acc ∨ ∃ h, h ∈ hrefs ∧ p h = true ∧ x = f h := by
  intro hrefs
  induction hrefs with
  | nil => intro acc x; simp
  | cons a rest ih =>
    intro acc x
    rw [List.foldl_cons]
    by_cases ha : p a = true
    · rw [if_pos ha]
      refine Iff.trans (ih _ x) ?_
      rw [mem_addUrl_iff]
      simp only [List.mem_cons]
      constructor
      · rintro ((hx | hx) | ⟨h, hh, hp, hres⟩)
        · exact Or.inr ⟨a, Or.inl rfl, ha, hx⟩
        · exact Or.inl hx
        · exact Or.inr ⟨h, Or.inr hh, hp, hres⟩
      · rintro (hx | ⟨h, hh | hh, hp, hres⟩)
        · exact Or.inl (Or.inr hx)
        · subst hh; exact Or.inl (Or.inl hres)
        · exact Or.inr ⟨h, hh, hp, hres⟩
    · rw [if_neg ha]
      refine Iff.trans (ih _ x) ?_
      simp only [List.mem_cons]
      constructor
      · rintro (hx | ⟨h, hh, hp, hres⟩)
        · exact Or.inl hx
        · exact Or.inr ⟨h, Or.inr hh, hp, hres⟩
      · rintro (hx | ⟨h, hh | hh, hp, hres⟩)
        · exact Or.inl hx
        · subst hh; exact absurd hp ha
        · exact Or.inr ⟨h, hh, hp, hres⟩

theorem foldl_addUrl_nodup (p : String → Bool) (f : String → String) :
    ∀ (hrefs acc : List String), acc.Nodup →
      (hrefs.foldl (fun a href => if p href then addUrl (f href) a else a) acc).Nodup := by
  intro hrefs
  induction hrefs with
  | nil => intro acc h; simpa using h
  | cons a rest ih =>
    intro acc h
    rw [List.foldl_cons]
    by_cases ha : p a = true
    · rw [if_pos ha]
      exact ih _ (addUrl_nodup _ _ h)
    · rw [if_neg ha]
      exact ih _ h

theorem harvestPage_mem (uj : String → String → String) (ts base : String)
    (hrefs acc : List String) (x : String) :
    x ∈ harvestPage uj ts base hrefs acc ↔
      x ∈ acc ∨ ∃ h, h ∈ hrefs ∧ strEndsWith (strToLower h) ".ra" = true ∧
        x = resolve_link uj ts base h :=
  foldl_addUrl_mem (fun h => strEndsWith (strToLower h) ".ra") (resolve_link uj ts base) hrefs acc x

theorem harvestPage_nodup (uj : String → String → String) (ts base : String)
    (hrefs acc : List String) (h : acc.Nodup) :
    (harvestPage uj ts base hrefs acc).Nodup :=
  foldl_addUrl_nodup (fun h => strEndsWith (strToLower h) ".ra") (resolve_link uj ts base) hrefs acc h

/- ------------------------------------------------------------------ -/
/- Claim theorems                                                     -/
/- ------------------------------------------------------------------ -/

/-- C1 (code bug evidence): on the worked example that the docstring of
parse_archive_base itself gives (expected original_base
http://www.mahoroba.or.jp/~nakagami/music/ with the host present), the
code returns the timestamp exactly but an original_base with an EMPTY
netloc and three slashes, http:///www.mahoroba.or.jp/~nakagami/music/,
because split with maxsplit 4 leaves the leading slash of the double
slash on parts[4].  The two strings differ, so the function contradicts
its own docstring and the claim. -/
theorem c1_parse_archive_base_contradicts_docstring :
    parse_archive_base examplePageUrl =
      (some "19970807011832", some "http:///www.mahoroba.or.jp/~nakagami/music/") ∧
    (some "http:///www.mahoroba.or.jp/~nakagami/music/" : Option String) ≠
      some "http://www.mahoroba.or.jp/~nakagami/music/" :=
  ⟨by decide, by decide⟩

/-- C2 (counterexample): HTTP status 206 is a 2xx status, yet
download_and_convert treats it as terminal failure: the body is NOT
written to the source path and the URL is recorded as skip, refuting the
claim that a 2xx status writes the full body to the source path. -/
theorem c2_counterexample_status_206 :
    (200 ≤ 206 ∧ 206 < 300) ∧
    (download_and_convert env206 sampleUrl st0).1 = false ∧
    sampleUrl ∈ (download_and_convert env206 sampleUrl st0).2.skipped ∧
    raPathOf sampleUrl ∉ (download_and_convert env206 sampleUrl st0).2.files :=
  ⟨⟨by decide, by decide⟩, by decide, by decide, by decide⟩

/-- C2 (amended): during the download step of process, for EVERY attempt
number k within the retry bound at which a response arrives (the earlier
attempts having raised transport errors), a response whose status is not
exactly 200 (rather than non-2xx) is immediately terminal with no
further retry - the trace ends with the k-th GET, the URL is recorded as
skip once and the source file is never created - while a status-200
response (rather than any 2xx) writes the body to the source path and
stops retrying.  In particular a URL whose response is always 404 is
skipped after exactly one attempt with no source file (the k = 1
instance). -/
theorem c2_download_status_terminal (env : Env) (url : String) (s : St) (k c : Nat)
    (hext : strEndsWith (strToLower (basename url)) ".ra" = true)
    (hdest : flacPathOf url ∉ s.files)
    (hsrc : raPathOf url ∉ s.files)
    (hk1 : 1 ≤ k) (hk2 : k ≤ MAX_RETRIES)
    (hprev : ∀ a, 1 ≤ a → a < k → env.http a = DlOutcome.raise)
    (hresp : env.http k = DlOutcome.resp c) :
    (c ≠ 200 →
      download_and_convert env url s =
        (false, { s with skipped := s.skipped ++ [url],
                         effects := s.effects ++ attemptTrace url (k - 1) ++
                           [Effect.httpGet url] })) ∧
    (c = 200 →
      downloadPhase env url s =
        (true, { s with files := addFile (raPathOf url) s.files,
                        effects := s.effects ++ attemptTrace url (k - 1) ++
                          [Effect.httpGet url, Effect.fsWrite (raPathOf url)] })) := by
  have hdp : downloadPhase env url s =
      (if c = 200 then
        (true, { s with files := addFile (raPathOf url) s.files,
                        effects := s.effects ++ attemptTrace url (k - 1) ++
                          [Effect.httpGet url, Effect.fsWrite (raPathOf url)] })
      else
        (false, { s with skipped := s.skipped ++ [url],
                         effects := s.effects ++ attemptTrace url (k - 1) ++
                           [Effect.httpGet url] })) := by
    unfold downloadPhase
    rw [if_neg hsrc, range'_one_three]
    have hk2' : k ≤ 3 := hk2
    interval_cases k
    · by_cases hc : c = 200
      · rw [if_pos hc]
        subst hc
        simp [downloadGo, hresp, attemptTrace, List.append_assoc]
      · rw [if_neg hc]
        simp [downloadGo, hresp, hc, attemptTrace, List.append_assoc]
    · have h1 : env.http 1 = DlOutcome.raise := hprev 1 (by omega) (by omega)
      by_cases hc : c = 200
      · rw [if_pos hc]
        subst hc
        simp [downloadGo, h1, hresp, attemptTrace, List.append_assoc]
      · rw [if_neg hc]
        simp [downloadGo, h1, hresp, hc, attemptTrace, List.append_assoc]
    · have h1 : env.http 1 = DlOutcome.raise := hprev 1 (by omega) (by omega)
      have h2 : env.http 2 = DlOutcome.raise := hprev 2 (by omega) (by omega)
      by_cases hc : c = 200
      · rw [if_pos hc]
        subst hc
        simp [downloadGo, h1, h2, hresp, attemptTrace, List.append_assoc]
      · rw [if_neg hc]
        simp [downloadGo, h1, h2, hresp, hc, attemptTrace, List.append_assoc]
  constructor
  · intro hc
    rw [dac_eq_main env url s hext hdest, hdp, if_neg hc, dlThenConvert_false]
  · intro hc
    rw [hdp, if_pos hc]

/-- C2 witness: concrete instance for the always-404 oracle, exercising
the amended theorem at attempt 1 with status 404. -/
theorem c2_witness :
    env404.http 1 = DlOutcome.resp 404 ∧ ((404 : Nat) ≠ 200) ∧
    download_and_convert env404 sampleUrl st0 =
      (false, { st0 with skipped := st0.skipped ++ [sampleUrl],
                         effects := st0.effects ++ attemptTrace sampleUrl 0 ++
                           [Effect.httpGet sampleUrl] }) :=
  ⟨rfl, by decide,
    (c2_download_status_terminal env404 sampleUrl st0 1 404
        (by decide) (by decide) (by decide) (by decide) (by decide)
        (fun a h1 h2 => absurd h2 (by omega)) rfl).1 (by decide)⟩

/-- C3: when every attempt raises a transport error, process makes
exactly 3 HTTP attempts with a fixed delay between consecutive attempts
and none after the final one, records the URL as skip once, creates no
file, and returns failure.  The exact effect trace is produced. -/
theorem c3_transport_error_retries (env : Env) (url : String) (s : St)
    (hext : strEndsWith (strToLower (basename url)) ".ra" = true)
    (hdest : flacPathOf url ∉ s.files)
    (hsrc : raPathOf url ∉ s.files)
    (hraise : ∀ a, env.http a = DlOutcome.raise) :
    download_and_convert env url s =
      (false, { s with skipped := s.skipped ++ [url],
                       effects := s.effects ++
                         [Effect.httpGet url, Effect.sleep RETRY_WAIT_SEC,
                          Effect.httpGet url, Effect.sleep RETRY_WAIT_SEC,
                          Effect.httpGet url] }) := by
  rw [dac_eq_main env url s hext hdest]
  have hdp : downloadPhase env url s =
      (false, { s with skipped := s.skipped ++ [url],
                       effects := s.effects ++
                         [Effect.httpGet url, Effect.sleep RETRY_WAIT_SEC,
                          Effect.httpGet url, Effect.sleep RETRY_WAIT_SEC,
                          Effect.httpGet url] }) := by
    unfold downloadPhase
    rw [if_neg hsrc, range'_one_three]
    simp [downloadGo, hraise, List.append_assoc]
  rw [hdp, dlThenConvert_false]

/-- C3 witness: concrete run with the always-raise oracle. -/
theorem c3_witness :
    strEndsWith (strToLower (basename sampleUrl)) ".ra" = true ∧
    download_and_convert envRaise sampleUrl st0 =
      (false, { st0 with skipped := st0.skipped ++ [sampleUrl],
                         effects := st0.effects ++
                           [Effect.httpGet sampleUrl, Effect.sleep RETRY_WAIT_SEC,
                            Effect.httpGet sampleUrl, Effect.sleep RETRY_WAIT_SEC,
                            Effect.httpGet sampleUrl] }) :=
  ⟨by decide,
    c3_transport_error_retries envRaise sampleUrl st0
      (by decide) (by decide) (by decide) (fun a => rfl)⟩

/-- C4: process is idempotent on success.  When the destination file
already exists, the call returns success with a completely unchanged
state (so no network request, no transcoder invocation, no filesystem
write or delete, no skip append); consequently, after any call that
returned success, a second call returns success and again leaves the
state untouched. -/
theorem c4_idempotent_success (env env2 : Env) (url : String) (s : St)
    (hext : strEndsWith (strToLower (basename url)) ".ra" = true)
    (hcontract : env.ffExit = 0 → env.ffWritesDest = true) :
    (flacPathOf url ∈ s.files → download_and_convert env url s = (true, s)) ∧
    (∀ s1 : St, download_and_convert env url s = (true, s1) →
      download_and_convert env2 url s1 = (true, s1)) := by
  constructor
  · exact fun hdest => dac_dest_exists env url s hext hdest
  · intro s1 h1
    have hfst : (download_and_convert env url s).1 = true := by rw [h1]
    have hmem := dac_true_dest_mem env url s hcontract hfst
    rw [h1] at hmem
    exact dac_dest_exists env2 url s1 hext hmem

/-- C4 witness: with the destination already on disk, the call returns
success and the state is unchanged. -/
theorem c4_witness :
    flacPathOf sampleUrl ∈ stWithFlac.files ∧
    download_and_convert envOk sampleUrl stWithFlac = (true, stWithFlac) :=
  ⟨by decide,
    (c4_idempotent_success envOk envOk sampleUrl stWithFlac
        (by decide) (fun _ => rfl)).1 (by decide)⟩

/-- C10: in one call to download_and_convert the URL is appended to the
caller-supplied skip list at most once (the final skip list is either
unchanged or extended by exactly the one URL), a call returning success
appends nothing, and a URL whose basename does not end in ".ra"
case-insensitively returns failure with a completely unchanged state. -/
theorem c10_skip_append_at_most_once (env : Env) (url : String) (s : St) :
    ((download_and_convert env url s).2.skipped = s.skipped ∨
     (download_and_convert env url s).2.skipped = s.skipped ++ [url]) ∧
    ((download_and_convert env url s).1 = true →
      (download_and_convert env url s).2.skipped = s.skipped) ∧
    (strEndsWith (strToLower (basename url)) ".ra" = false →
      download_and_convert env url s = (false, s)) :=
  ⟨dac_skipped_cases env url s, dac_true_skipped env url s, dac_eq_noext env url s⟩

/-- C10 witness: a URL ending in ".mp3" is rejected with no side effect. -/
theorem c10_witness :
    strEndsWith (strToLower (basename mp3Url)) ".ra" = false ∧
    download_and_convert envOk mp3Url st0 = (false, st0) :=
  ⟨by decide, (c10_skip_append_at_most_once envOk mp3Url st0).2.2 (by decide)⟩

/-- C5 (counterexample): a transcoder that exits non-zero but leaves a
partially-written destination file on disk refutes the claim that the
destination file does not end up existing: after the call the destination
IS on disk (and would satisfy the already-processed check of a later
call), even though the URL was recorded as skip. -/
theorem c5_counterexample_partial_dest :
    (download_and_convert envPartial sampleUrl st0).1 = false ∧
    sampleUrl ∈ (download_and_convert envPartial sampleUrl st0).2.skipped ∧
    flacPathOf sampleUrl ∈ (download_and_convert envPartial sampleUrl st0).2.files :=
  ⟨by decide, by decide, by decide⟩

/-- C5 (amended): when the download succeeds and the transcoder exits
non-zero, the call records the URL as skip exactly once and returns
failure, the source file is removed whenever the removal call itself
succeeds, and the code neither creates nor deletes the destination: the
destination file exists afterwards exactly when the failing transcoder
itself wrote it. -/
theorem c5_conversion_failure (env : Env) (url : String) (s : St)
    (hext : strEndsWith (strToLower (basename url)) ".ra" = true)
    (hdest : flacPathOf url ∉ s.files)
    (hsrc : raPathOf url ∉ s.files)
    (h200 : env.http 1 = DlOutcome.resp 200)
    (hexit : env.ffExit ≠ 0) :
    (download_and_convert env url s).1 = false ∧
    (download_and_convert env url s).2.skipped = s.skipped ++ [url] ∧
    (env.removeOk = true → raPathOf url ∉ (download_and_convert env url s).2.files) ∧
    (flacPathOf url ∈ (download_and_convert env url s).2.files ↔
      env.ffWritesDest = true) := by
  rw [dac_eq_main env url s hext hdest, downloadPhase_first_200 env url s hsrc h200]
  have hmem : raPathOf url ∈
      ({ s with files := addFile (raPathOf url) s.files,
                effects := s.effects ++
                  [Effect.httpGet url, Effect.fsWrite (raPathOf url)] } : St).files :=
    mem_addFile_self _ _
  rw [dlThenConvert_true env url _ hmem, convert_fail env url _ hexit]
  refine ⟨convFail_fst _ _ _, ?_, ?_, ?_⟩
  · rw [convFail_skipped, transcodeStart_skipped]
  · intro hrm
    exact convFail_ra_removed env url _
      (transcodeStart_files_mem env url _ _ hmem) hrm
  · rw [convFail_files_iff env url _ _ (Ne.symm (raPath_ne_flacPath url url)),
        transcodeStart_flac_mem]
    have hnot : flacPathOf url ∉
        ({ s with files := addFile (raPathOf url) s.files,
                  effects := s.effects ++
                    [Effect.httpGet url, Effect.fsWrite (raPathOf url)] } : St).files := by
      intro hx
      rcases (mem_addFile_iff (flacPathOf url) (raPathOf url) s.files).mp hx with h1 | h1
      · exact raPath_ne_flacPath url url h1.symm
      · exact hdest h1
    constructor
    · rintro (h | h)
      · exact h
      · exact absurd h hnot
    · exact fun h => Or.inl h

/-- C5 witness: concrete instance of the amended theorem with the
partial-write transcoder oracle. -/
theorem c5_witness :
    envPartial.ffExit ≠ 0 ∧
    (download_and_convert envPartial sampleUrl st0).1 = false ∧
    (download_and_convert envPartial sampleUrl st0).2.skipped =
      st0.skipped ++ [sampleUrl] :=
  ⟨by decide,
    (c5_conversion_failure envPartial sampleUrl st0
        (by decide) (by decide) (by decide) rfl (by decide)).1,
    (c5_conversion_failure envPartial sampleUrl st0
        (by decide) (by decide) (by decide) rfl (by decide)).2.1⟩

/-- C6: when the download succeeds and the transcoder exits zero (and,
per its contract, writes the destination), the call returns success, the
destination file exists, the URL is not appended to the skip list, and
the source file is gone whenever the best-effort removal succeeded; a
removal failure never changes the success result, which holds for either
value of the removal oracle. -/
theorem c6_conversion_success (env : Env) (url : String) (s : St)
    (hext : strEndsWith (strToLower (basename url)) ".ra" = true)
    (hdest : flacPathOf url ∉ s.files)
    (hsrc : raPathOf url ∉ s.files)
    (h200 : env.http 1 = DlOutcome.resp 200)
    (hexit : env.ffExit = 0)
    (hwrites : env.ffWritesDest = true) :
    (download_and_convert env url s).1 = true ∧
    (download_and_convert env url s).2.skipped = s.skipped ∧
    flacPathOf url ∈ (download_and_convert env url s).2.files ∧
    (env.removeOk = true → raPathOf url ∉ (download_and_convert env url s).2.files) := by
  rw [dac_eq_main env url s hext hdest, downloadPhase_first_200 env url s hsrc h200]
  have hmem : raPathOf url ∈
      ({ s with files := addFile (raPathOf url) s.files,
                effects := s.effects ++
                  [Effect.httpGet url, Effect.fsWrite (raPathOf url)] } : St).files :=
    mem_addFile_self _ _
  rw [dlThenConvert_true env url _ hmem, convert_okk env url _ hexit]
  refine ⟨rfl, ?_, ?_, ?_⟩
  · show (tryRemoveRa env url _).skipped = s.skipped
    rw [tryRemoveRa_skipped, transcodeStart_skipped]
  · apply convOk_files_mem env url _ _ (Ne.symm (raPath_ne_flacPath url url))
    rw [transcodeStart_flac_mem]
    exact Or.inl hwrites
  · intro hrm
    exact convOk_ra_removed env url _ hrm

/-- C6 witness: concrete successful run. -/
theorem c6_witness :
    envOk.ffExit = 0 ∧
    (download_and_convert envOk sampleUrl st0).1 = true ∧
    flacPathOf sampleUrl ∈ (download_and_convert envOk sampleUrl st0).2.files :=
  ⟨rfl,
    (c6_conversion_success envOk sampleUrl st0
        (by decide) (by decide) (by decide) rfl rfl rfl).1,
    (c6_conversion_success envOk sampleUrl st0
        (by decide) (by decide) (by decide) rfl rfl rfl).2.2.1⟩

/-- C9: in any call where, after the download step, the source file does
not exist in the resulting state, the call returns failure, the URL is in
the skip list of the final state, and no transcoder effect is ever
emitted (the trace contains exactly the transcode effects it started
with), i.e. processing stops before the transcoder. -/
theorem c9_missing_source_skip (env : Env) (url : String) (s : St)
    (hext : strEndsWith (strToLower (basename url)) ".ra" = true)
    (hdest : flacPathOf url ∉ s.files)
    (hmiss : raPathOf url ∉ (downloadPhase env url s).2.files) :
    (download_and_convert env url s).1 = false ∧
    url ∈ (download_and_convert env url s).2.skipped ∧
    ((download_and_convert env url s).2.effects).filter (fun e => e.isTranscode) =
      s.effects.filter (fun e => e.isTranscode) := by
  rcases hr : downloadPhase env url s with ⟨ok, s1⟩
  rw [hr] at hmiss
  cases ok with
  | true =>
    have hmem := downloadPhase_true_files env url s (by rw [hr])
    rw [hr] at hmem
    exact absurd hmem hmiss
  | false =>
    have heq : download_and_convert env url s = (false, s1) := by
      rw [dac_eq_main env url s hext hdest, hr, dlThenConvert_false]
    have hskF := downloadPhase_false_skipped env url s (by rw [hr])
    rw [hr] at hskF
    have hnt := downloadPhase_no_transcode env url s
    rw [hr] at hnt
    refine ⟨by rw [heq], ?_, ?_⟩
    · rw [heq]
      show url ∈ s1.skipped
      rw [show s1.skipped = s.skipped ++ [url] from hskF]
      simp
    · rw [heq]
      exact hnt

/-- C9 witness: with the always-404 oracle the source file is missing
after the download step, the URL is skipped and no transcode happens. -/
theorem c9_witness :
    raPathOf sampleUrl ∉ (downloadPhase env404 sampleUrl st0).2.files ∧
    sampleUrl ∈ (download_and_convert env404 sampleUrl st0).2.skipped :=
  ⟨by decide,
    (c9_missing_source_skip env404 sampleUrl st0
        (by decide) (by decide) (by decide)).2.1⟩

/-- C7 (counterexample): the three observable states are not mutually
exclusive, so a URL is not always in EXACTLY one of them: when a failing
transcoder leaves a partially-written destination, after the run the URL
is simultaneously in the recorded-as-skipped state and in the
output-exists state. -/
theorem c7_counterexample_overlapping_states :
    sampleUrl ∈ (runAll (fun _ => envPartial) [sampleUrl] st0).skipped ∧
    flacPathOf sampleUrl ∈ (runAll (fun _ => envPartial) [sampleUrl] st0).files :=
  ⟨by decide, by decide⟩

/-- C7 (amended): after the run every processed URL is in AT LEAST one of
the terminal states (its output file exists, or it is recorded as
skipped) - the states may overlap when a failing transcoder leaves a
partial destination - and the pipeline never re-attempts a URL whose
destination exists: such a call returns success with an unchanged state,
so no network request, transcoder invocation or file operation happens. -/
theorem c7_run_invariant (envOf : String → Env) (urls : List String) (s : St)
    (hext : ∀ u, u ∈ urls → strEndsWith (strToLower (basename u)) ".ra" = true)
    (hcontract : ∀ u, (envOf u).ffExit = 0 → (envOf u).ffWritesDest = true) :
    (∀ u, u ∈ urls →
      flacPathOf u ∈ (runAll envOf urls s).files ∨
        u ∈ (runAll envOf urls s).skipped) ∧
    (∀ (env2 : Env) (u2 : String) (s2 : St),
      strEndsWith (strToLower (basename u2)) ".ra" = true →
      flacPathOf u2 ∈ s2.files →
      download_and_convert env2 u2 s2 = (true, s2)) := by
  constructor
  · induction urls generalizing s with
    | nil => intro u hu; exact absurd hu (List.not_mem_nil u)
    | cons a rest ih =>
      intro u hu
      rcases List.mem_cons.mp hu with rfl | hu2
      · have hrw : runAll envOf (u :: rest) s =
            runAll envOf rest (download_and_convert (envOf u) u s).2 := rfl
        rw [hrw]
        rcases hres : download_and_convert (envOf u) u s with ⟨ok, s1⟩
        cases ok with
        | true =>
          left
          have hfst : (download_and_convert (envOf u) u s).1 = true := by rw [hres]
          have hmem := dac_true_dest_mem (envOf u) u s (hcontract u) hfst
          rw [hres] at hmem
          exact runAll_flac_mono envOf rest _ u hmem
        | false =>
          right
          have hfst : (download_and_convert (envOf u) u s).1 = false := by rw [hres]
          have hskp := dac_false_skipped (envOf u) u s
            (hext u (List.mem_cons_self u rest)) hfst
          rw [hres] at hskp
          refine runAll_skipped_mono envOf rest _ u ?_
          show u ∈ s1.skipped
          rw [show s1.skipped = s.skipped ++ [u] from hskp]
          simp
      · have hrw : runAll envOf (a :: rest) s =
            runAll envOf rest (download_and_convert (envOf a) a s).2 := rfl
        rw [hrw]
        exact ih _ (fun v hv => hext v (List.mem_cons_of_mem a hv)) u hu2
  · intro env2 u2 s2 hext2 hmem2
    exact dac_dest_exists env2 u2 s2 hext2 hmem2

/-- C7 witness: concrete instance of the amended run invariant on a
one-URL run with the successful oracle. -/
theorem c7_witness :
    strEndsWith (strToLower (basename sampleUrl)) ".ra" = true ∧
    (flacPathOf sampleUrl ∈ (runAll (fun _ => envOk) [sampleUrl] st0).files ∨
      sampleUrl ∈ (runAll (fun _ => envOk) [sampleUrl] st0).skipped) :=
  ⟨by decide,
    (c7_run_invariant (fun _ => envOk) [sampleUrl] st0
        (by intro u hu
            rw [List.mem_singleton] at hu
            subst hu
            decide)
        (fun u h => rfl)).1 sampleUrl (List.mem_singleton_self sampleUrl)⟩

/-- C8: on one harvested page, an anchor target ending case-insensitively
in ".ra" contributes exactly its resolved URL to the collected set: the
set membership of the accumulated list is characterised by resolve_link
over matching hrefs, the accumulated list stays duplicate-free (one entry
per distinct resolved string), and resolve_link uses an absolute href
directly while joining a relative href against the page original_base,
in both cases re-wrapping under the archive host with the page
timestamp. -/
theorem c8_harvest_resolution (uj : String → String → String) (ts base : String)
    (hrefs acc : List String) (x : String) :
    (x ∈ harvestPage uj ts base hrefs acc ↔
      x ∈ acc ∨ ∃ h, h ∈ hrefs ∧ strEndsWith (strToLower h) ".ra" = true ∧
        x = resolve_link uj ts base h) ∧
    (acc.Nodup → (harvestPage uj ts base hrefs acc).Nodup) ∧
    (∀ h : String, (strStartsWith h "http://" || strStartsWith h "https://") = true →
        resolve_link uj ts base h = "https://web.archive.org/web/" ++ ts ++ "/" ++ h) ∧
    (∀ h : String, (strStartsWith h "http://" || strStartsWith h "https://") = false →
        resolve_link uj ts base h =
          "https://web.archive.org/web/" ++ ts ++ "/" ++ uj base h) := by
  refine ⟨harvestPage_mem uj ts base hrefs acc x,
    harvestPage_nodup uj ts base hrefs acc, ?_, ?_⟩
  · intro h hcond
    unfold resolve_link
    rw [hcond]
    simp
  · intro h hcond
    unfold resolve_link
    rw [hcond]
    simp

/-- C8 witness: on a concrete href list with a duplicate, the resolved
URL of the matching anchor is in the harvested set. -/
theorem c8_witness :
    strEndsWith (strToLower "a.RA") ".ra" = true ∧
    resolve_link ujSample "19970807015220" "http:///h/d/" "a.RA" ∈
      harvestPage ujSample "19970807015220" "http:///h/d/" ["a.RA", "b.gif", "a.RA"] [] :=
  ⟨by decide,
    ((c8_harvest_resolution ujSample "19970807015220" "http:///h/d/"
        ["a.RA", "b.gif", "a.RA"] []
        (resolve_link ujSample "19970807015220" "http:///h/d/" "a.RA")).1).mpr
      (Or.inr ⟨"a.RA", by decide, by decide, rfl⟩)⟩

end Gabb
